import Mathlib

/-!
Verification development for the Schedulean P6 schedule analyzer
(src/schedulean_streamlit.py).  The Python source is shallowly embedded:
rows (Python dicts of strings) become association lists with
last-binding-wins lookup (matching dict overwrite semantics), Python
floats become rationals (every numeric literal appearing in the claims
is exactly representable, and no claim depends on rounding), and the
while-loop of the alternate-path search becomes a fuel-indexed function
together with a proof (bfsLoop_stable) that the result is independent of
the fuel once the fuel exceeds an explicit iteration bound, so the
embedded function computes the true semantics of the loop.
-/

attribute [local semireducible] Rat.add Rat.mul Rat.sub Rat.inv

/-- Rows of a parsed table: a Python dict from column name to string value,
embedded as an association list built in insertion order. -/
abbrev Row : Type := List (String × String)

/-- Python dict lookup on an association list built in insertion order:
the value of the latest binding of the key wins, mirroring that a later
dict assignment overwrites an earlier one. -/
def lastAssoc {β : Type} : List (String × β) → String → Option β
  | [], _ => none
  | (k1, v1) :: rest, k =>
    match lastAssoc rest k with
    | some v => some v
    | none => if k1 == k then some v1 else none

/-- Python d.get(k) on a row: the bound value, or none when absent. -/
def dgetOpt (r : Row) (k : String) : Option String :=
  lastAssoc r k

/-- Python d.get(k, default) on a row. -/
def dget (r : Row) (k d : String) : String :=
  (dgetOpt r k).getD d

/-- Digits of a decimal literal read as a natural number. -/
def digitsToNat (cs : List Char) : ℕ :=
  cs.foldl (fun a c => a * 10 + (c.toNat - 48)) 0

/-- The character set of Python str.isspace, which str.strip and the
float builtin strip from both ends: the Unicode whitespace code points
0009-000D, 001C-0020, 0085, 00A0, 1680, 2000-200A, 2028-2029, 202F,
205F and 3000. -/
def pyIsSpace (c : Char) : Bool :=
  let n := c.toNat
  decide ((0x09 ≤ n ∧ n ≤ 0x0D) ∨ (0x1C ≤ n ∧ n ≤ 0x20) ∨ n = 0x85 ∨ n = 0xA0
    ∨ n = 0x1680 ∨ (0x2000 ≤ n ∧ n ≤ 0x200A) ∨ n = 0x2028 ∨ n = 0x2029
    ∨ n = 0x202F ∨ n = 0x205F ∨ n = 0x3000)

/-- Python str.strip on a character list: drop Python whitespace from
both ends. -/
def pyStrip (cs : List Char) : List Char :=
  ((cs.dropWhile pyIsSpace).reverse.dropWhile pyIsSpace).reverse

/-- Model of the Python float builtin on a plain decimal string literal:
optional sign, integer digits, optional fractional digits (at least one
digit overall), with Python whitespace stripped first.  Strings outside
this grammar are rejected, which safe_float resolves to the default.
Deliberate scope of the rational embedding: exponent, infinity, nan and
underscore forms accepted by the builtin are not modelled (they also
resolve to the default here), and a decimal literal is read exactly
rather than rounded to binary; no theorem below depends on a value
outside the plain-decimal grammar or on rounding. -/
def parseDecimal (s : String) : Option ℚ :=
  let cs := pyStrip s.toList
  let sign : ℚ × List Char :=
    match cs with
    | '-' :: rest => (-1, rest)
    | '+' :: rest => (1, rest)
    | _ => (1, cs)
  let intPart := sign.2.takeWhile Char.isDigit
  let rest := sign.2.dropWhile Char.isDigit
  match rest with
  | [] =>
    if intPart = [] then none
    else some (sign.1 * (digitsToNat intPart : ℚ))
  | '.' :: frac =>
    if frac.all Char.isDigit ∧ (intPart ≠ [] ∨ frac ≠ []) then
      some (sign.1 * ((digitsToNat intPart : ℚ)
        + (digitsToNat frac : ℚ) / (10 : ℚ) ^ frac.length))
    else none
  | _ => none

/-- The safe_float helper: None or the empty string give the default, a
parsable number gives its value, anything else gives the default.  The
call sites pass d.get(key, 0), embedded here as an Option String whose
none case (missing key, Python integer default 0) yields 0 like the
float(0) of the source. -/
def safe_float (value : Option String) (default : ℚ) : ℚ :=
  match value with
  | none => default
  | some s => if s = "" then default else (parseDecimal s).getD default

/-- XER_ACTIVITY_MAP constant of the source. -/
def XER_ACTIVITY_MAP : List (String × String) :=
  [("TT_Task", "Task Dependent"),
   ("TT_Rsrc", "Resource Dependent"),
   ("TT_LOE", "Level of Effort"),
   ("TT_Mile", "Start Milestone"),
   ("TT_FinMile", "Finish Milestone"),
   ("TT_WBS", "WBS Summary")]

/-- XER_REL_MAP constant of the source. -/
def XER_REL_MAP : List (String × String) :=
  [("PR_FS", "Finish-to-Start (FS)"),
   ("PR_FF", "Finish-to-Finish (FF)"),
   ("PR_SS", "Start-to-Start (SS)"),
   ("PR_SF", "Start-to-Finish (SF)")]

/-- Python dict .get(k) for the two constant maps (their keys are
distinct, so first match equals dict lookup). -/
def mapLookup (m : List (String × String)) (k : String) : Option String :=
  (m.find? (fun p => p.1 == k)).map (fun p => p.2)

/-- Adjacency structure of analyze_redundant_logic: activity id mapped to
the list of (successor id, relationship type, lag) of its outgoing
relationships, in insertion order (a defaultdict of lists). -/
abbrev Graph : Type := List (String × List (String × String × ℚ))

/-- graph.get(current, []) of the source on the adjacency structure. -/
def graphGet (g : Graph) (k : String) : List (String × String × ℚ) :=
  ((g.find? (fun p => p.1 == k)).map (fun p => p.2)).getD []

/-- graph[pred_id].append(edge) of the source: append to the existing
adjacency list, or create the key (defaultdict behaviour). -/
def graphAdd (g : Graph) (k : String) (e : String × String × ℚ) : Graph :=
  if g.any (fun p => p.1 == k) then
    g.map (fun p => if p.1 == k then (p.1, p.2 ++ [e]) else p)
  else
    g ++ [(k, [e])]

/-- Body of the graph-building loop of analyze_redundant_logic: add the
edge of one relationship row, skipping a row whose predecessor or
successor id is missing or empty (Python string truthiness). -/
def graphStep (g : Graph) (rel : Row) : Graph :=
  let pred_id := dget rel "pred_task_id" ""
  let succ_id := dget rel "succ_task_id" ""
  let rel_type := dget rel "pred_type" "PR_FS"
  let lag := safe_float (dgetOpt rel "lag_hr_cnt") 0
  if pred_id ≠ "" ∧ succ_id ≠ "" then
    graphAdd g pred_id (succ_id, rel_type, lag)
  else g

/-- First loop of analyze_redundant_logic: build the adjacency structure
from the relationship rows. -/
def graphOf (relationships : List Row) : Graph :=
  relationships.foldl graphStep []

/-- Queue entries of the alternate-path search:
(current node, cumulative lag, path taken). -/
abbrev Entry : Type := String × ℚ × List String

/-- Neighbour expansion step of the search: enqueue every neighbour of
the current node that is not already on the current path, with the
accumulated lag and the path extended by the current node. -/
def expandFrom (g : Graph) (current : String) (cum : ℚ)
    (path : List String) : List Entry :=
  (graphGet g current).filterMap
    (fun e => if e.1 ∈ path then none else some (e.1, cum + e.2.2, path ++ [current]))

/-- Total number of edges of the adjacency structure. -/
def totalEdges (g : Graph) : ℕ :=
  (g.map (fun p => p.2.length)).sum

/-- Iteration measure of the search loop: it strictly decreases at each
iteration (bfsMeasure_tail_lt, bfsMeasure_expand_lt), which bounds the
number of iterations and hence proves the loop terminates. -/
def bfsMeasure (g : Graph) (queue : List Entry) (visited : List String) : ℕ :=
  (1000 - visited.length) * (totalEdges g + 1) + queue.length

/-- The while loop of has_alternate_path.  The loop runs while the queue
is non-empty and fewer than 1000 distinct nodes have been visited; a
dequeued entry is discarded when its path exceeds depth 10, reports an
alternate path when it reaches the end node with more than one edge,
is skipped when its node was already visited, and otherwise marks the
node visited and enqueues its not-on-path neighbours.  The fuel
argument only models the finitely many iterations: by bfsLoop_stable
the result is the same for every fuel above bfsMeasure. -/
def bfsLoop (g : Graph) (endNode : String) :
    ℕ → List Entry → List String → Bool
  | _, [], _ => false
  | 0, _ :: _, _ => false
  | fuel + 1, (current, cum, path) :: rest, visited =>
    if visited.length < 1000 then
      if path.length > 10 then
        bfsLoop g endNode fuel rest visited
      else if current = endNode ∧ path.length > 1 then
        true
      else if current ∈ visited then
        bfsLoop g endNode fuel rest visited
      else
        bfsLoop g endNode fuel (rest ++ expandFrom g current cum path)
          (current :: visited)
    else false

/-- Fuel sufficient for the whole search from its initial state. -/
def initFuel (g : Graph) : ℕ :=
  1000 * (totalEdges g + 1) + 2

/-- has_alternate_path of the source: breadth-first search for a path of
more than one edge from start to endNode.  The direct relationship
argument is received and unpacked by the source but never used. -/
def has_alternate_path (g : Graph) (start endNode : String)
    (_direct_rel : String × ℚ) : Bool :=
  bfsLoop g endNode (initFuel g) [(start, 0, [])] []

/-- What the loop body of has_alternate_path does with one dequeued
entry: discard it for exceeding the depth bound, return reporting an
alternate path, skip it because its node is in the visited set, or mark
the node visited and expand its neighbours. -/
inductive BfsAction where
  | discardDeep : BfsAction
  | foundAlternate : BfsAction
  | skipVisited : BfsAction
  | expandNode : BfsAction
deriving DecidableEq

/-- One dequeue event of the search loop: the dequeued node, the path of
its entry, and what the body did with it. -/
abbrev BfsEvent : Type := String × List String × BfsAction

/-- Instrumented copy of bfsLoop recording one event per loop iteration
(equivalently, per deque popleft), so the number of dequeued nodes of a
search is the length of the event list.  Fuel exhaustion returns none,
so a some result certifies that the recorded events are the complete
real iteration sequence of the loop; bfsTrace_bfsLoop relates the
boolean component back to bfsLoop. -/
def bfsTrace (g : Graph) (endNode : String) :
    ℕ → List Entry → List String → Option (Bool × List BfsEvent)
  | _, [], _ => some (false, [])
  | 0, _ :: _, _ => none
  | fuel + 1, (current, cum, path) :: rest, visited =>
    if visited.length < 1000 then
      if path.length > 10 then
        match bfsTrace g endNode fuel rest visited with
        | some r => some (r.1, (current, path, .discardDeep) :: r.2)
        | none => none
      else if current = endNode ∧ path.length > 1 then
        some (true, [(current, path, .foundAlternate)])
      else if current ∈ visited then
        match bfsTrace g endNode fuel rest visited with
        | some r => some (r.1, (current, path, .skipVisited) :: r.2)
        | none => none
      else
        match bfsTrace g endNode fuel (rest ++ expandFrom g current cum path)
            (current :: visited) with
        | some r => some (r.1, (current, path, .expandNode) :: r.2)
        | none => none
    else some (false, [])

/-- Instrumented copy of bfsLoop that only counts loop iterations
(deque popleft calls), tail-recursively, with the count accumulated in
the last argument.  Fuel exhaustion returns none, so a some result
certifies the count is the real number of dequeues of the loop;
bfsCount_bfsLoop relates the boolean component back to bfsLoop. -/
def bfsCount (g : Graph) (endNode : String) :
    ℕ → List Entry → List String → ℕ → Option (Bool × ℕ)
  | _, [], _, count => some (false, count)
  | 0, _ :: _, _, _ => none
  | fuel + 1, (current, cum, path) :: rest, visited, count =>
    if visited.length < 1000 then
      if path.length > 10 then
        bfsCount g endNode fuel rest visited (count + 1)
      else if current = endNode ∧ path.length > 1 then
        some (true, count + 1)
      else if current ∈ visited then
        bfsCount g endNode fuel rest visited (count + 1)
      else
        bfsCount g endNode fuel (rest ++ expandFrom g current cum path)
          (current :: visited) (count + 1)
    else some (false, count)

/-- One flagged redundant relationship of the output. -/
structure RedundantRel where
  predecessor_id : String
  successor_id : String
  predecessor_code : String
  successor_code : String
  relationship_type : String
  lag_hours : ℚ
deriving DecidableEq

/-- Result record of analyze_redundant_logic. -/
structure RedundantLogicResult where
  redundant_relationships : List RedundantRel
  total_relationships_checked : ℕ
  redundant_count : ℕ
deriving DecidableEq

/-- Activity-code resolution of the source: the task_code of the first
activity whose task_id equals the given id, with the id itself as
fallback (both when no activity matches and when task_code is absent). -/
def activityCode (activities : List Row) (theId : String) : String :=
  match activities.find? (fun a => dget a "task_id" "" == theId) with
  | some a => dget a "task_code" theId
  | none => theId

/-- Body of the checking loop of analyze_redundant_logic: the checked
total is incremented for every row (before the id test), and a row with
both ids present whose edge has an alternate path is appended to the
flagged list. -/
def redundantStep (graph : Graph) (activities : List Row)
    (acc : List RedundantRel × ℕ) (rel : Row) : List RedundantRel × ℕ :=
  let total := acc.2 + 1
  let pred_id := dget rel "pred_task_id" ""
  let succ_id := dget rel "succ_task_id" ""
  let rel_type := dget rel "pred_type" "PR_FS"
  let direct_lag := safe_float (dgetOpt rel "lag_hr_cnt") 0
  if pred_id ≠ "" ∧ succ_id ≠ "" then
    if has_alternate_path graph pred_id succ_id (rel_type, direct_lag) then
      (acc.1 ++ [⟨pred_id, succ_id,
                  activityCode activities pred_id,
                  activityCode activities succ_id,
                  rel_type, direct_lag⟩], total)
    else (acc.1, total)
  else (acc.1, total)

/-- analyze_redundant_logic of the source: build the graph, then run the
checking loop over every relationship row.  The rel_map dict the source
builds next to the graph is never read afterwards and is omitted. -/
def analyze_redundant_logic (activities relationships : List Row) :
    RedundantLogicResult :=
  let graph := graphOf relationships
  let r := relationships.foldl (redundantStep graph activities) ([], 0)
  ⟨r.1, r.2, r.1.length⟩

/-- Python str.split with a single-character separator on a character
list: no collapsing of adjacent separators, empty parts preserved, and
the empty input gives one empty part. -/
def splitOnChar (sep : Char) : List Char → List (List Char)
  | [] => [[]]
  | c :: rest =>
    let r := splitOnChar sep rest
    if c = sep then [] :: r
    else
      match r with
      | h :: t => (c :: h) :: t
      | [] => [[c]]

/-- Tab-delimited fields of a line, as strings
(Python line.split of the source). -/
def tabFields (line : List Char) : List String :=
  (splitOnChar '\t' line).map (fun cs => ⟨cs⟩)

/-- Python truthiness of the current-table variable: None and the empty
string are falsy. -/
def truthyCurrent : Option String → Bool
  | none => false
  | some s => s ≠ ""

/-- Row built from a row-data line (the dict comprehension of the
source): one entry per declared column, the value at the matching
position, or the empty string when the line has fewer values; values
beyond the declared column count contribute nothing. -/
def rowOf (cols values : List String) : Row :=
  (List.range cols.length).map (fun i => (cols.getD i "", values.getD i ""))

/-- Parser state threaded through the line loop of parse_xer_simplified:
the six accumulated tables plus the current table name and the current
column list. -/
structure ParseState where
  tasks : List Row
  preds : List Row
  assigns : List Row
  resources : List Row
  roles : List Row
  role_rates : List Row
  current : Option String
  cols : List String
deriving DecidableEq

/-- Append a parsed row to the table selected by the current table name;
rows of unrecognized table names are dropped. -/
def addRow (st : ParseState) (c : String) (row : Row) : ParseState :=
  if c = "TASK" then
    ⟨st.tasks ++ [row], st.preds, st.assigns, st.resources, st.roles,
     st.role_rates, st.current, st.cols⟩
  else if c = "TASKPRED" then
    ⟨st.tasks, st.preds ++ [row], st.assigns, st.resources, st.roles,
     st.role_rates, st.current, st.cols⟩
  else if c = "TASKRSRC" then
    ⟨st.tasks, st.preds, st.assigns ++ [row], st.resources, st.roles,
     st.role_rates, st.current, st.cols⟩
  else if c = "RSRC" then
    ⟨st.tasks, st.preds, st.assigns, st.resources ++ [row], st.roles,
     st.role_rates, st.current, st.cols⟩
  else if c = "ROLES" then
    ⟨st.tasks, st.preds, st.assigns, st.resources, st.roles ++ [row],
     st.role_rates, st.current, st.cols⟩
  else if c = "ROLERATE" then
    ⟨st.tasks, st.preds, st.assigns, st.resources, st.roles,
     st.role_rates ++ [row], st.current, st.cols⟩
  else st

/-- One iteration of the line loop of parse_xer_simplified: strip the
line; skip it when blank; on a table-declaration line set the current
table to the second tab field and reset the columns, or fail (the
IndexError of the source) when the line has no second tab field; on a
column-declaration line set the columns to the remaining fields; on a
row-data line, when a truthy current table and a non-empty column list
exist, append the positionally-zipped row to the matching table;
anything else is skipped. -/
def parse_line (st : ParseState) (raw : String) : Option ParseState :=
  let line := pyStrip raw.toList
  if line = [] then some st
  else if List.isPrefixOf "%T".toList line then
    match tabFields line with
    | _ :: name :: _ =>
      some ⟨st.tasks, st.preds, st.assigns, st.resources, st.roles,
            st.role_rates, some name, []⟩
    | _ => none
  else if List.isPrefixOf "%F".toList line then
    some ⟨st.tasks, st.preds, st.assigns, st.resources, st.roles,
          st.role_rates, st.current, (tabFields line).drop 1⟩
  else if List.isPrefixOf "%R".toList line ∧ truthyCurrent st.current
      ∧ st.cols ≠ [] then
    let values := (tabFields line).drop 1
    some (addRow st (st.current.getD "") (rowOf st.cols values))
  else some st

/-- The six tables returned by parse_xer_simplified (the constant
filename entry of the returned dict is omitted). -/
structure XerTables where
  activities : List Row
  relationships : List Row
  assignments : List Row
  resources : List Row
  roles : List Row
  role_rates : List Row
deriving DecidableEq

/-- parse_xer_simplified of the source, over the list of lines of the
file content (the content.splitlines() of the source is taken as input).
An uncaught IndexError of the line loop aborts the parse and is embedded
as none (the caller catches it and reports an error, yielding no
tables). -/
def parse_xer_simplified (lines : List String) : Option XerTables :=
  match lines.foldlM parse_line ⟨[], [], [], [], [], [], none, []⟩ with
  | some st =>
    some ⟨st.tasks, st.preds, st.assigns, st.resources, st.roles, st.role_rates⟩
  | none => none

/-- Histogram initialised with a zero count for every name
(the dict comprehension over the constant maps). -/
def histInit (names : List String) : List (String × ℕ) :=
  names.map (fun n => (n, 0))

/-- Histogram increment at a key (counts[name] += 1). -/
def histIncr (h : List (String × ℕ)) (k : String) : List (String × ℕ) :=
  h.map (fun p => if p.1 = k then (p.1, p.2 + 1) else p)

/-- Body of the two histogram loops of analyze_project_data: look up the
mapped name of the tag field of the row and increment that name, ignoring a
row whose tag is not in the map. -/
def tallyStep (m : List (String × String)) (field deflt : String)
    (h : List (String × ℕ)) (r : Row) : List (String × ℕ) :=
  match mapLookup m (dget r field deflt) with
  | some name => histIncr h name
  | none => h

/-- Shared shape of the two histogram loops of analyze_project_data:
start with a zero count for every value of the constant map, then run
tallyStep over every row. -/
def tallyMapped (m : List (String × String)) (field deflt : String)
    (rows : List Row) : List (String × ℕ) :=
  rows.foldl (tallyStep m field deflt) (histInit (m.map (fun p => p.2)))

/-- Number of rows whose tag field maps to a given name. -/
def tagCount (m : List (String × String)) (field deflt : String)
    (rows : List Row) (n : String) : ℕ :=
  (rows.filter (fun r => mapLookup m (dget r field deflt) == some n)).length

/-- Activity-type histogram of analyze_project_data. -/
def activity_counts (activities : List Row) : List (String × ℕ) :=
  tallyMapped XER_ACTIVITY_MAP "task_type" "" activities

/-- Relationship-type histogram of analyze_project_data. -/
def relationship_counts (relationships : List Row) : List (String × ℕ) :=
  tallyMapped XER_REL_MAP "pred_type" "PR_FS" relationships

/-- resource_lookup of analyze_project_data: the dict comprehension over
the resource rows keyed by rsrc_id, embedded as the association list of
bindings in insertion order, with lastAssoc lookup so that a later
duplicate id overwrites an earlier one exactly as the dict does. -/
def resource_lookup (resources : List Row) : List (String × Row) :=
  resources.map (fun r => (dget r "rsrc_id" "", r))

/-- rsrc_type of the resource record an assignment points to: none when
the resource id is unknown (the empty-dict default of the source) or
when the record has no rsrc_type key (dict .get with no default). -/
def rsrcTypeOpt (resources : List Row) (a : Row) : Option String :=
  match lastAssoc (resource_lookup resources) (dget a "rsrc_id" "") with
  | some r => dgetOpt r "rsrc_type"
  | none => none

/-- Resource class an assignment is counted under: RT_Labor gives Labor,
RT_Mat gives Material, anything else (including an unknown resource id
or a missing rsrc_type, both read as the empty string) gives Non-Labor. -/
def assignClass (resources : List Row) (a : Row) : String :=
  let rsrc_type := (rsrcTypeOpt resources a).getD ""
  if rsrc_type = "RT_Labor" then "Labor"
  else if rsrc_type = "RT_Mat" then "Material"
  else "Non-Labor"

/-- defaultdict(int) increment: bump the key when present, otherwise add
it with count 1 (keys appear in first-increment order). -/
def dIncr (h : List (String × ℕ)) (k : String) : List (String × ℕ) :=
  if h.any (fun p => p.1 = k) then histIncr h k else h ++ [(k, 1)]

/-- resource_counts of analyze_project_data: a defaultdict(int) tally of
assignments by resource class, starting empty. -/
def resource_counts (assignments resources : List Row) : List (String × ℕ) :=
  assignments.foldl (fun h a => dIncr h (assignClass resources a)) []

/-- target_cost of an assignment read with safe_float and default 0. -/
def targetCost (a : Row) : ℚ :=
  safe_float (dgetOpt a "target_cost") 0

/-- labor_cost of analyze_project_data: sum of target costs of the
assignments whose looked-up rsrc_type equals RT_Labor. -/
def labor_cost (assignments resources : List Row) : ℚ :=
  ((assignments.filter
    (fun a => rsrcTypeOpt resources a == some "RT_Labor")).map targetCost).sum

/-- nonlabor_cost of analyze_project_data: sum of target costs of the
assignments whose looked-up rsrc_type is neither RT_Labor nor RT_Mat
(including None for unknown resources, as in the not-in test of the source). -/
def nonlabor_cost (assignments resources : List Row) : ℚ :=
  ((assignments.filter
    (fun a => !(rsrcTypeOpt resources a == some "RT_Labor"
        || rsrcTypeOpt resources a == some "RT_Mat"))).map targetCost).sum

/-- material_cost of analyze_project_data: sum of target costs of the
assignments whose looked-up rsrc_type equals RT_Mat. -/
def material_cost (assignments resources : List Row) : ℚ :=
  ((assignments.filter
    (fun a => rsrcTypeOpt resources a == some "RT_Mat")).map targetCost).sum

/-- The cost triple of the result of analyze_project_data. -/
structure Costs where
  labor : ℚ
  nonlabor : ℚ
  material : ℚ
deriving DecidableEq

/-- The result record of analyze_project_data. -/
structure ProjectAnalysis where
  activity_counts : List (String × ℕ)
  relationship_counts : List (String × ℕ)
  resource_counts : List (String × ℕ)
  total_assignments : ℕ
  total_resources : ℕ
  costs : Costs
  redundant_logic : RedundantLogicResult
deriving DecidableEq

/-- analyze_project_data of the source. -/
def analyze_project_data (data : XerTables) : ProjectAnalysis :=
  ⟨activity_counts data.activities,
   relationship_counts data.relationships,
   resource_counts data.assignments data.resources,
   data.assignments.length,
   data.resources.length,
   ⟨labor_cost data.assignments data.resources,
    nonlabor_cost data.assignments data.resources,
    material_cost data.assignments data.resources⟩,
   analyze_redundant_logic data.activities data.relationships⟩

/-- There is an edge from u to v in the adjacency structure. -/
def hasEdge (g : Graph) (u v : String) : Bool :=
  (graphGet g u).any (fun p => p.1 == v)

/-- The node sequence prev :: xs followed by n is an edge-connected walk
in the graph. -/
def chainFrom (g : Graph) : String → List String → String → Bool
  | prev, [], n => hasEdge g prev n
  | prev, x :: xs, n => hasEdge g prev x && chainFrom g x xs n

/-- A queue entry (node n with path) is well-formed for a search started
at s: the empty path means n is the start node itself, and a non-empty
path starts at s, is edge-connected, and has an edge from its last node
to n.  The number of edges of the witnessed walk is the path length. -/
def entryChain (g : Graph) (s : String) (path : List String) (n : String) : Bool :=
  match path with
  | [] => s == n
  | x :: xs => (x == s) && chainFrom g x xs n

/-- Nodes of the expansion events of a trace, in expansion order. -/
def expandedNodes (evs : List BfsEvent) : List String :=
  evs.filterMap
    (fun ev =>
      match ev.2.2 with
      | BfsAction.expandNode => some ev.1
      | _ => none)

/-- A row has both endpoint ids present and non-empty. -/
def hasBothIds (r : Row) : Bool :=
  decide (dget r "pred_task_id" "" ≠ "") && decide (dget r "succ_task_id" "" ≠ "")

/-- A line is safe for the parser when, if it is a table-declaration
line, it has a second tab field (the source indexes fields[1] without a
guard, so a table-declaration line without one raises IndexError). -/
def tLineOk (raw : String) : Prop :=
  List.isPrefixOf "%T".toList (pyStrip raw.toList) →
    2 ≤ (tabFields (pyStrip raw.toList)).length

instance (raw : String) : Decidable (tLineOk raw) := by
  unfold tLineOk
  infer_instance

/-- Relationship row with the given endpoint ids, FS type and zero lag. -/
def relRow (p s : String) : Row :=
  [("pred_task_id", p), ("succ_task_id", s), ("pred_type", "PR_FS"),
   ("lag_hr_cnt", "0")]

/-- The three-relationship chain of the redundancy test: the edges A to B,
B to C and the direct edge A to C. -/
def chainRels : List Row :=
  [relRow "A" "B", relRow "B" "C", relRow "A" "C"]

/-- The two-relationship cycle A to B, B to A. -/
def cycleRels : List Row :=
  [relRow "A" "B", relRow "B" "A"]

/-- A graph with 1001 parallel edges from A to B: built from 1001 copies
of the same relationship row, every copy is appended to the adjacency
list of A. -/
def parallelGraph : Graph :=
  [("A", List.replicate 1001 ("B", "PR_FS", (0 : ℚ)))]

/-- Diamond graph of the branch-skip test: P to A, B and T; A and B both
to X. -/
def diamondGraph : Graph :=
  graphOf [relRow "P" "A", relRow "P" "B", relRow "P" "T",
           relRow "A" "X", relRow "B" "X"]

/-- Resource rows of the cost example: R1 is Labor, R2 is Material. -/
def exampleResources : List Row :=
  [[("rsrc_id", "R1"), ("rsrc_type", "RT_Labor")],
   [("rsrc_id", "R2"), ("rsrc_type", "RT_Mat")]]

/-- Assignment rows of the cost example: R1 costs 100, R2 costs 50, and
an unknown resource costs 25. -/
def exampleAssignments : List Row :=
  [[("rsrc_id", "R1"), ("target_cost", "100")],
   [("rsrc_id", "R2"), ("target_cost", "50")],
   [("rsrc_id", "RX"), ("target_cost", "25")]]

/-- Two resource rows sharing the id R1: the first Labor, the second
Material. -/
def duplicateResources : List Row :=
  [[("rsrc_id", "R1"), ("rsrc_type", "RT_Labor")],
   [("rsrc_id", "R1"), ("rsrc_type", "RT_Mat")]]

/-- An id-less relationship row used by the C4 counterexample. -/
def idlessRel : Row := [("pred_type", "PR_FS")]

/-- Every adjacency list of the graph is no longer than the total edge
count. -/
lemma graphGet_length_le (g : Graph) (k : String) :
    (graphGet g k).length ≤ totalEdges g := by
  unfold graphGet totalEdges
  cases h : g.find? (fun p => p.1 == k) with
  | none => simp
  | some p =>
    have hp := List.mem_of_find?_eq_some h
    have hm : p.2.length ∈ g.map (fun q => q.2.length) :=
      List.mem_map_of_mem (fun q => q.2.length) hp
    simpa using List.single_le_sum (fun x _ => Nat.zero_le x) _ hm

/-- A single expansion enqueues at most totalEdges new entries. -/
lemma expandFrom_length_le (g : Graph) (c : String) (cum : ℚ)
    (path : List String) :
    (expandFrom g c cum path).length ≤ totalEdges g :=
  le_trans (List.length_filterMap_le _ _) (graphGet_length_le g c)

/-- Discarding the head of the queue decreases the loop measure. -/
lemma bfsMeasure_tail_lt (g : Graph) (x : Entry) (rest : List Entry)
    (v : List String) :
    bfsMeasure g rest v < bfsMeasure g (x :: rest) v := by
  unfold bfsMeasure
  rw [List.length_cons]
  omega

/-- Expanding the head of the queue decreases the loop measure: the
visited set grows by one (its length stays under the 1000 bound), which
pays for the at most totalEdges new queue entries. -/
lemma bfsMeasure_expand_lt (g : Graph) (c : String) (cum : ℚ)
    (path : List String) (rest : List Entry) (v : List String)
    (hv : v.length < 1000) :
    bfsMeasure g (rest ++ expandFrom g c cum path) (c :: v)
      < bfsMeasure g ((c, cum, path) :: rest) v := by
  have hex : (expandFrom g c cum path).length ≤ totalEdges g :=
    expandFrom_length_le g c cum path
  unfold bfsMeasure
  rw [List.length_append, List.length_cons, List.length_cons]
  have h : 1000 - v.length = (1000 - (v.length + 1)) + 1 := by omega
  rw [h, add_mul, one_mul]
  omega

/-- The search loop is insensitive to the fuel once the fuel exceeds the
loop measure: the loop reaches its exit (empty queue, visited cap, or a
found alternate path) within bfsMeasure iterations.  This is the
termination argument for the while loop of has_alternate_path. -/
lemma bfsLoop_stable (g : Graph) (e : String) :
    ∀ f1 f2 (q : List Entry) (v : List String),
      bfsMeasure g q v < f1 → bfsMeasure g q v < f2 →
      bfsLoop g e f1 q v = bfsLoop g e f2 q v := by
  intro f1
  induction f1 with
  | zero =>
    intro f2 q v h1 _
    exact absurd h1 (Nat.not_lt_zero _)
  | succ f1 ih =>
    intro f2 q v h1 h2
    cases q with
    | nil => simp [bfsLoop]
    | cons entry rest =>
      obtain ⟨c, cum, path⟩ := entry
      cases f2 with
      | zero =>
        exfalso
        unfold bfsMeasure at h2
        rw [List.length_cons] at h2
        omega
      | succ f2 =>
        have htail := bfsMeasure_tail_lt g (c, cum, path) rest v
        simp only [bfsLoop]
        split_ifs with hvis hdeep hfound hskip
        · exact ih f2 rest v (by omega) (by omega)
        · rfl
        · exact ih f2 rest v (by omega) (by omega)
        · have hexp := bfsMeasure_expand_lt g c cum path rest v hvis
          exact ih f2 (rest ++ expandFrom g c cum path) (c :: v)
            (by omega) (by omega)
        · rfl

/-- The boolean result of the counting instrumentation agrees with the
plain loop whenever the fuel did not run out. -/
lemma bfsCount_bfsLoop (g : Graph) (e : String) :
    ∀ (fuel : ℕ) (q : List Entry) (v : List String) (count : ℕ)
      (b : Bool) (n : ℕ),
      bfsCount g e fuel q v count = some (b, n) →
      bfsLoop g e fuel q v = b := by
  intro fuel
  induction fuel with
  | zero =>
    intro q v count b n h
    cases q with
    | nil =>
      simp only [bfsCount, Option.some.injEq, Prod.mk.injEq] at h
      simp [bfsLoop, h.1.symm]
    | cons entry rest => simp [bfsCount] at h
  | succ fuel ih =>
    intro q v count b n h
    cases q with
    | nil =>
      simp only [bfsCount, Option.some.injEq, Prod.mk.injEq] at h
      simp [bfsLoop, h.1.symm]
    | cons entry rest =>
      obtain ⟨c, cum, path⟩ := entry
      simp only [bfsCount] at h
      simp only [bfsLoop]
      split_ifs at h ⊢ with hvis hdeep hfound hskip
      · exact ih rest v (count + 1) b n h
      · simp only [Option.some.injEq, Prod.mk.injEq] at h
        exact h.1
      · exact ih rest v (count + 1) b n h
      · exact ih (rest ++ expandFrom g c cum path) (c :: v) (count + 1) b n h
      · simp only [Option.some.injEq, Prod.mk.injEq] at h
        exact h.1

/-- The boolean result of the event-trace instrumentation agrees with
the plain loop whenever the fuel did not run out. -/
lemma bfsTrace_bfsLoop (g : Graph) (e : String) :
    ∀ (fuel : ℕ) (q : List Entry) (v : List String)
      (b : Bool) (evs : List BfsEvent),
      bfsTrace g e fuel q v = some (b, evs) →
      bfsLoop g e fuel q v = b := by
  intro fuel
  induction fuel with
  | zero =>
    intro q v b evs h
    cases q with
    | nil =>
      simp only [bfsTrace, Option.some.injEq, Prod.mk.injEq] at h
      simp [bfsLoop, h.1.symm]
    | cons entry rest => simp [bfsTrace] at h
  | succ fuel ih =>
    intro q v b evs h
    cases q with
    | nil =>
      simp only [bfsTrace, Option.some.injEq, Prod.mk.injEq] at h
      simp [bfsLoop, h.1.symm]
    | cons entry rest =>
      obtain ⟨c, cum, path⟩ := entry
      simp only [bfsTrace] at h
      simp only [bfsLoop]
      split_ifs at h ⊢ with hvis hdeep hfound hskip
      · cases hr : bfsTrace g e fuel rest v with
        | none => rw [hr] at h; simp at h
        | some r =>
          rw [hr] at h
          simp only [Option.some.injEq, Prod.mk.injEq] at h
          exact (ih rest v r.1 r.2 (by rw [hr])).trans (by rw [h.1])
      · simp only [Option.some.injEq, Prod.mk.injEq] at h
        exact h.1
      · cases hr : bfsTrace g e fuel rest v with
        | none => rw [hr] at h; simp at h
        | some r =>
          rw [hr] at h
          simp only [Option.some.injEq, Prod.mk.injEq] at h
          exact (ih rest v r.1 r.2 (by rw [hr])).trans (by rw [h.1])
      · cases hr : bfsTrace g e fuel (rest ++ expandFrom g c cum path) (c :: v) with
        | none => rw [hr] at h; simp at h
        | some r =>
          rw [hr] at h
          simp only [Option.some.injEq, Prod.mk.injEq] at h
          exact (ih _ _ r.1 r.2 (by rw [hr])).trans (by rw [h.1])
      · simp only [Option.some.injEq, Prod.mk.injEq] at h
        exact h.1

/-- A walk can be extended by one edge at its end. -/
lemma chainFrom_append (g : Graph) :
    ∀ (xs : List String) (p c n : String),
      chainFrom g p xs c = true → hasEdge g c n = true →
      chainFrom g p (xs ++ [c]) n = true := by
  intro xs
  induction xs with
  | nil =>
    intro p c n h he
    simp only [chainFrom, List.nil_append]
    simp only [chainFrom] at h
    simp [h, he]
  | cons x xs ih =>
    intro p c n h he
    simp only [chainFrom, List.cons_append, Bool.and_eq_true] at h ⊢
    exact ⟨h.1, ih x c n h.2 he⟩

/-- A well-formed entry extended by an edge to a neighbour is again
well-formed, with the current node appended to the path. -/
lemma entryChain_snoc (g : Graph) (s : String) (path : List String)
    (c n : String) (h : entryChain g s path c = true)
    (he : hasEdge g c n = true) :
    entryChain g s (path ++ [c]) n = true := by
  cases path with
  | nil =>
    simp only [entryChain, beq_iff_eq] at h
    simp only [List.nil_append, entryChain, chainFrom, Bool.and_eq_true, beq_iff_eq]
    exact ⟨h.symm, he⟩
  | cons x xs =>
    simp only [entryChain, Bool.and_eq_true] at h
    simp only [List.cons_append, entryChain, Bool.and_eq_true]
    exact ⟨h.1, chainFrom_append g xs x c n h.2 he⟩

/-- Entries produced by an expansion step are well-formed when the
expanded entry was. -/
lemma expandFrom_entryChain (g : Graph) (s c : String) (cum : ℚ)
    (path : List String) (h : entryChain g s path c = true) :
    ∀ x ∈ expandFrom g c cum path, entryChain g s x.2.2 x.1 = true := by
  intro x hx
  unfold expandFrom at hx
  obtain ⟨edge, hmem, hed⟩ := List.mem_filterMap.mp hx
  by_cases hin : edge.1 ∈ path
  · simp [hin] at hed
  · simp only [hin, if_neg, if_false] at hed
    have hedge : hasEdge g c edge.1 = true := by
      unfold hasEdge
      exact List.any_eq_true.mpr ⟨edge, hmem, by simp⟩
    have hch := entryChain_snoc g s path c edge.1 h hedge
    obtain rfl : (edge.1, cum + edge.2.2, path ++ [c]) = x := Option.some.inj hed
    simpa using hch

/-- Soundness of the search loop: a true answer always comes with a
well-formed entry that reached the end node through more than one edge,
so there really is a walk of at least two edges from the start to the
end node. -/
lemma bfsLoop_sound (g : Graph) (s e : String) :
    ∀ (fuel : ℕ) (q : List Entry) (v : List String),
      (∀ x ∈ q, entryChain g s x.2.2 x.1 = true) →
      bfsLoop g e fuel q v = true →
      ∃ path : List String, entryChain g s path e = true ∧ 2 ≤ path.length := by
  intro fuel
  induction fuel with
  | zero =>
    intro q v _ hb
    cases q with
    | nil => simp [bfsLoop] at hb
    | cons entry rest => simp [bfsLoop] at hb
  | succ fuel ih =>
    intro q v hq hb
    cases q with
    | nil => simp [bfsLoop] at hb
    | cons entry rest =>
      obtain ⟨c, cum, path⟩ := entry
      simp only [bfsLoop] at hb
      split_ifs at hb with hvis hdeep hfound hskip
      · exact ih rest v (fun x hx => hq x (List.mem_cons_of_mem _ hx)) hb
      · refine ⟨path, ?_, by omega⟩
        have := hq (c, cum, path) (List.mem_cons_self _ _)
        simpa [hfound.1] using this
      · exact ih rest v (fun x hx => hq x (List.mem_cons_of_mem _ hx)) hb
      · refine ih (rest ++ expandFrom g c cum path) (c :: v) ?_ hb
        intro x hx
        rcases List.mem_append.mp hx with hx | hx
        · exact hq x (List.mem_cons_of_mem _ hx)
        · exact expandFrom_entryChain g s c cum path
            (hq (c, cum, path) (List.mem_cons_self _ _)) x hx

/-- An expansion step never enqueues a node that is on the current path:
this is the only filter applied when enqueuing. -/
lemma expandFrom_not_mem_path (g : Graph) (c : String) (cum : ℚ)
    (path : List String) :
    ∀ x ∈ expandFrom g c cum path, x.1 ∉ path := by
  intro x hx
  unfold expandFrom at hx
  obtain ⟨edge, _, hed⟩ := List.mem_filterMap.mp hx
  by_cases hin : edge.1 ∈ path
  · simp [hin] at hed
  · simp only [hin, if_neg, if_false] at hed
    obtain rfl : (edge.1, cum + edge.2.2, path ++ [c]) = x := Option.some.inj hed
    exact hin

/-- Computation rules of expandedNodes on each event kind. -/
lemma expandedNodes_cons_discard (c : String) (p : List String)
    (evs : List BfsEvent) :
    expandedNodes ((c, p, BfsAction.discardDeep) :: evs) = expandedNodes evs := rfl

/-- Computation rule of expandedNodes: skip events contribute nothing. -/
lemma expandedNodes_cons_skip (c : String) (p : List String)
    (evs : List BfsEvent) :
    expandedNodes ((c, p, BfsAction.skipVisited) :: evs) = expandedNodes evs := rfl

/-- Computation rule of expandedNodes: found events contribute nothing. -/
lemma expandedNodes_cons_found (c : String) (p : List String)
    (evs : List BfsEvent) :
    expandedNodes ((c, p, BfsAction.foundAlternate) :: evs) = expandedNodes evs := rfl

/-- Computation rule of expandedNodes: expansion events contribute their
node. -/
lemma expandedNodes_cons_expand (c : String) (p : List String)
    (evs : List BfsEvent) :
    expandedNodes ((c, p, BfsAction.expandNode) :: evs) = c :: expandedNodes evs := rfl

/-- Along one search the expanded nodes avoid the initial visited set and
are pairwise distinct: once a node has been explored, every later
arrival at it (from any branch) is skipped by the visited test, so no
node is ever expanded twice. -/
lemma bfsTrace_expand_nodup (g : Graph) (e : String) :
    ∀ (fuel : ℕ) (q : List Entry) (v : List String)
      (b : Bool) (evs : List BfsEvent),
      bfsTrace g e fuel q v = some (b, evs) →
      (∀ x ∈ expandedNodes evs, x ∉ v) ∧ (expandedNodes evs).Nodup := by
  intro fuel
  induction fuel with
  | zero =>
    intro q v b evs h
    cases q with
    | nil =>
      simp only [bfsTrace, Option.some.injEq, Prod.mk.injEq] at h
      rw [← h.2]
      exact ⟨fun x hx => absurd hx (List.not_mem_nil x), List.nodup_nil⟩
    | cons entry rest => simp [bfsTrace] at h
  | succ fuel ih =>
    intro q v b evs h
    cases q with
    | nil =>
      simp only [bfsTrace, Option.some.injEq, Prod.mk.injEq] at h
      rw [← h.2]
      exact ⟨fun x hx => absurd hx (List.not_mem_nil x), List.nodup_nil⟩
    | cons entry rest =>
      obtain ⟨c, cum, path⟩ := entry
      simp only [bfsTrace] at h
      split_ifs at h with hvis hdeep hfound hskip
      · cases hr : bfsTrace g e fuel rest v with
        | none => rw [hr] at h; exact Option.noConfusion h
        | some r =>
          rw [hr] at h
          simp only [Option.some.injEq, Prod.mk.injEq] at h
          obtain ⟨-, hevs⟩ := h
          have hrec := ih rest v r.1 r.2 (by rw [hr])
          rw [← hevs, expandedNodes_cons_discard]
          exact hrec
      · simp only [Option.some.injEq, Prod.mk.injEq] at h
        obtain ⟨-, hevs⟩ := h
        rw [← hevs, expandedNodes_cons_found]
        exact ⟨fun x hx => absurd hx (List.not_mem_nil x), List.nodup_nil⟩
      · cases hr : bfsTrace g e fuel rest v with
        | none => rw [hr] at h; exact Option.noConfusion h
        | some r =>
          rw [hr] at h
          simp only [Option.some.injEq, Prod.mk.injEq] at h
          obtain ⟨-, hevs⟩ := h
          have hrec := ih rest v r.1 r.2 (by rw [hr])
          rw [← hevs, expandedNodes_cons_skip]
          exact hrec
      · cases hr : bfsTrace g e fuel (rest ++ expandFrom g c cum path) (c :: v) with
        | none => rw [hr] at h; exact Option.noConfusion h
        | some r =>
          rw [hr] at h
          simp only [Option.some.injEq, Prod.mk.injEq] at h
          obtain ⟨-, hevs⟩ := h
          have hrec := ih _ _ r.1 r.2 (by rw [hr])
          rw [← hevs, expandedNodes_cons_expand]
          have hnotc : c ∉ expandedNodes r.2 := by
            intro hc
            exact (hrec.1 c hc) (List.mem_cons_self _ _)
          constructor
          · intro x hx
            rcases List.mem_cons.mp hx with rfl | hx
            · exact hskip
            · intro hxv
              exact (hrec.1 x hx) (List.mem_cons_of_mem _ hxv)
          · exact List.Nodup.cons hnotc hrec.2
      · simp only [Option.some.injEq, Prod.mk.injEq] at h
        obtain ⟨-, hevs⟩ := h
        rw [← hevs]
        exact ⟨fun x hx => absurd hx (List.not_mem_nil x), List.nodup_nil⟩

/-- Incrementing a histogram key leaves the key list unchanged. -/
lemma histIncr_keys (h : List (String × ℕ)) (k : String) :
    (histIncr h k).map Prod.fst = h.map Prod.fst := by
  unfold histIncr
  rw [List.map_map]
  apply List.map_congr_left
  intro p _
  by_cases hp : p.1 = k <;> simp [hp]

/-- Closed form of the histogram fold: every starting count gains the
number of rows mapped to its key. -/
lemma tallyFold_add (m : List (String × String)) (field deflt : String) :
    ∀ (rows : List Row) (h : List (String × ℕ)),
      rows.foldl (tallyStep m field deflt) h
        = h.map (fun p => (p.1, p.2 + tagCount m field deflt rows p.1)) := by
  intro rows
  induction rows with
  | nil =>
    intro h
    simp [tagCount]
  | cons r rows ih =>
    intro h
    rw [List.foldl_cons, ih]
    cases hm : mapLookup m (dget r field deflt) with
    | none =>
      simp only [tallyStep, hm]
      apply List.map_congr_left
      intro p _
      have : tagCount m field deflt (r :: rows) p.1
          = tagCount m field deflt rows p.1 := by
        unfold tagCount
        rw [List.filter_cons]
        simp [hm]
      rw [this]
    | some name =>
      simp only [tallyStep, hm]
      unfold histIncr
      rw [List.map_map]
      apply List.map_congr_left
      intro p _
      have hcnt : tagCount m field deflt (r :: rows) p.1
          = tagCount m field deflt rows p.1 + (if name = p.1 then 1 else 0) := by
        unfold tagCount
        rw [List.filter_cons]
        by_cases hn : name = p.1
        · simp [hm, hn]
        · simp [hm, hn]
      simp only [Function.comp_apply]
      by_cases hp : p.1 = name
      · rw [if_pos hp, hcnt, if_pos hp.symm]
        simp only [Prod.mk.injEq]
        exact ⟨trivial, by omega⟩
      · rw [if_neg hp, hcnt, if_neg (fun hh => hp hh.symm)]
        simp

/-- The zero histogram lists exactly the given names as keys. -/
lemma histInit_keys (names : List String) :
    (histInit names).map Prod.fst = names := by
  unfold histInit
  rw [List.map_map]
  have : (Prod.fst ∘ fun n : String => (n, (0 : ℕ))) = fun n : String => n := rfl
  rw [this]
  simp

/-- Closed form of tallyMapped: one entry per map value, counting the
rows mapped to it. -/
lemma tallyMapped_eq (m : List (String × String)) (field deflt : String)
    (rows : List Row) :
    tallyMapped m field deflt rows
      = (m.map (fun p => p.2)).map
          (fun n => (n, tagCount m field deflt rows n)) := by
  unfold tallyMapped histInit
  rw [tallyFold_add, List.map_map]
  apply List.map_congr_left
  intro n _
  show (n, 0 + tagCount m field deflt rows n) = (n, tagCount m field deflt rows n)
  rw [Nat.zero_add]

/-- The keys of tallyMapped are exactly the map values, in order. -/
lemma tallyMapped_keys (m : List (String × String)) (field deflt : String)
    (rows : List Row) :
    (tallyMapped m field deflt rows).map Prod.fst = m.map (fun p => p.2) := by
  rw [tallyMapped_eq, List.map_map]
  have : (Prod.fst ∘ fun n => (n, tagCount m field deflt rows n))
      = fun n : String => n := rfl
  rw [this]
  simp

/-- A successful map lookup returns one of the values of the map. -/
lemma mapLookup_mem_values (m : List (String × String)) (k v : String)
    (h : mapLookup m k = some v) : v ∈ m.map (fun p => p.2) := by
  unfold mapLookup at h
  cases hf : m.find? (fun p => p.1 == k) with
  | none => rw [hf] at h; exact Option.noConfusion h
  | some p =>
    rw [hf] at h
    have hv : p.2 = v := Option.some.inj h
    rw [← hv]
    exact List.mem_map_of_mem _ (List.mem_of_find?_eq_some hf)

/-- Indicator sum over a list not containing the value is zero. -/
lemma sum_indicator_not_mem (v : String) :
    ∀ (names : List String), v ∉ names →
      (names.map (fun n => if v = n then (1 : ℕ) else 0)).sum = 0 := by
  intro names
  induction names with
  | nil => intro _; rfl
  | cons a t ih =>
    intro hv
    have ha : v ≠ a := fun hh => hv (hh ▸ List.mem_cons_self a t)
    have ht : v ∉ t := fun hh => hv (List.mem_cons_of_mem a hh)
    simp [ha, ih ht]

/-- Indicator sum over a duplicate-free list containing the value is one. -/
lemma sum_indicator_nodup (v : String) :
    ∀ (names : List String), names.Nodup → v ∈ names →
      (names.map (fun n => if v = n then (1 : ℕ) else 0)).sum = 1 := by
  intro names
  induction names with
  | nil => intro _ hv; exact absurd hv (List.not_mem_nil v)
  | cons a t ih =>
    intro hnd hv
    rcases List.mem_cons.mp hv with rfl | hv
    · have ht : v ∉ t := (List.nodup_cons.mp hnd).1
      simp [sum_indicator_not_mem v t ht]
    · have ha : v ≠ a := by
        intro hh
        exact (List.nodup_cons.mp hnd).1 (hh ▸ hv)
      simp [ha, ih (List.nodup_cons.mp hnd).2 hv]

/-- Sums of pointwise sums split. -/
lemma sum_map_add (names : List String) (f g : String → ℕ) :
    (names.map (fun n => f n + g n)).sum = (names.map f).sum + (names.map g).sum := by
  induction names with
  | nil => rfl
  | cons a t ih => simp [ih]; omega

/-- The counts of tallyMapped sum to the number of rows whose tag is in
the map (each mapped row is counted under exactly one map value). -/
lemma tallyMapped_sum (m : List (String × String)) (field deflt : String)
    (hnd : (m.map (fun p => p.2)).Nodup) (rows : List Row) :
    ((tallyMapped m field deflt rows).map Prod.snd).sum
      = (rows.filter
          (fun r => (mapLookup m (dget r field deflt)).isSome)).length := by
  rw [tallyMapped_eq, List.map_map]
  have hcomp : (Prod.snd ∘ fun n => (n, tagCount m field deflt rows n))
      = fun n => tagCount m field deflt rows n := rfl
  rw [hcomp]
  clear hcomp
  induction rows with
  | nil =>
    simp only [List.filter_nil, List.length_nil]
    apply List.sum_eq_zero
    intro x hx
    obtain ⟨n, -, rfl⟩ := List.mem_map.mp hx
    rfl
  | cons r rows ih =>
    rw [List.filter_cons]
    cases hm : mapLookup m (dget r field deflt) with
    | none =>
      have hmap : (m.map (fun p => p.2)).map
            (fun n => tagCount m field deflt (r :: rows) n)
          = (m.map (fun p => p.2)).map
            (fun n => tagCount m field deflt rows n) := by
        apply List.map_congr_left
        intro n _
        unfold tagCount
        rw [List.filter_cons]
        simp [hm]
      rw [hmap]
      simpa [hm] using ih
    | some name =>
      have hmap : (m.map (fun p => p.2)).map
            (fun n => tagCount m field deflt (r :: rows) n)
          = (m.map (fun p => p.2)).map
            (fun n => tagCount m field deflt rows n
              + (if name = n then 1 else 0)) := by
        apply List.map_congr_left
        intro n _
        unfold tagCount
        rw [List.filter_cons]
        by_cases hn : name = n <;> simp [hm, hn]
      rw [hmap, sum_map_add, ih]
      rw [sum_indicator_nodup name (m.map (fun p => p.2)) hnd
        (mapLookup_mem_values m _ name hm)]
      simp [hm]

/-- Incrementing an absent key changes nothing. -/
lemma histIncr_noop (k : String) :
    ∀ (h : List (String × ℕ)), k ∉ h.map Prod.fst → histIncr h k = h := by
  intro h
  induction h with
  | nil => intro _; rfl
  | cons p t ih =>
    intro hk
    have hp : p.1 ≠ k := by
      intro hh
      exact hk (by rw [← hh]; exact List.mem_cons_self _ _)
    have ht : k ∉ t.map Prod.fst := fun hh => hk (List.mem_cons_of_mem _ hh)
    simp only [histIncr] at ih ⊢
    rw [List.map_cons, if_neg hp, ih ht]

/-- Incrementing a present key of a duplicate-free histogram adds one to
the total count. -/
lemma histIncr_sum_nodup (k : String) :
    ∀ (h : List (String × ℕ)), (h.map Prod.fst).Nodup →
      h.any (fun p => p.1 = k) = true →
      ((histIncr h k).map Prod.snd).sum = (h.map Prod.snd).sum + 1 := by
  intro h
  induction h with
  | nil => intro _ ha; simp at ha
  | cons p t ih =>
    intro hnd ha
    by_cases hp : p.1 = k
    · have hk : k ∉ t.map Prod.fst := by
        rw [← hp]
        exact (List.nodup_cons.mp (by simpa using hnd)).1
      simp only [histIncr]
      rw [List.map_cons, if_pos hp]
      have : List.map (fun p => if p.1 = k then (p.1, p.2 + 1) else p) t = t :=
        histIncr_noop k t hk
      rw [this]
      simp only [List.map_cons, List.sum_cons]
      omega
    · have ht : t.any (fun p => p.1 = k) = true := by
        simp only [List.any_cons, Bool.or_eq_true] at ha
        rcases ha with ha | ha
        · exact absurd (by simpa using ha) hp
        · exact ha
      have hndt : (t.map Prod.fst).Nodup := (List.nodup_cons.mp (by simpa using hnd)).2
      simp only [histIncr]
      rw [List.map_cons, if_neg hp]
      simp only [List.map_cons, List.sum_cons]
      have := ih hndt ht
      simp only [histIncr] at this
      omega

/-- A defaultdict increment adds exactly one to the total count. -/
lemma dIncr_sum (h : List (String × ℕ)) (k : String)
    (hnd : (h.map Prod.fst).Nodup) :
    ((dIncr h k).map Prod.snd).sum = (h.map Prod.snd).sum + 1 := by
  unfold dIncr
  by_cases ha : h.any (fun p => p.1 = k)
  · rw [if_pos ha]
    exact histIncr_sum_nodup k h hnd ha
  · rw [if_neg ha]
    simp

/-- A defaultdict increment keeps the keys duplicate-free. -/
lemma dIncr_keys_nodup (h : List (String × ℕ)) (k : String)
    (hnd : (h.map Prod.fst).Nodup) :
    ((dIncr h k).map Prod.fst).Nodup := by
  unfold dIncr
  by_cases ha : h.any (fun p => p.1 = k)
  · rw [if_pos ha, histIncr_keys]
    exact hnd
  · rw [if_neg ha]
    rw [List.map_append]
    have hk : k ∉ h.map Prod.fst := by
      intro hmem
      obtain ⟨p, hp, hpk⟩ := List.mem_map.mp hmem
      have : h.any (fun p => p.1 = k) = true := List.any_eq_true.mpr ⟨p, hp, by simp [hpk]⟩
      exact ha this
    simp [List.nodup_append, hnd]
    intro a hmem
    exact hk (List.mem_map.mpr ⟨(k, a), hmem, rfl⟩)

/-- Keys after a defaultdict increment: the old keys plus the new one. -/
lemma dIncr_mem_keys (h : List (String × ℕ)) (k a : String) :
    a ∈ (dIncr h k).map Prod.fst ↔ a ∈ h.map Prod.fst ∨ a = k := by
  unfold dIncr
  by_cases ha : h.any (fun p => p.1 = k)
  · rw [if_pos ha, histIncr_keys]
    constructor
    · exact Or.inl
    · rintro (hm | rfl)
      · exact hm
      · obtain ⟨p, hp, hpk⟩ := List.any_eq_true.mp ha
        exact List.mem_map.mpr ⟨p, hp, by simpa using hpk⟩
  · rw [if_neg ha, List.map_append]
    simp [List.mem_append]

/-- Invariant of the resource-count fold: keys stay duplicate-free and
the total count grows by one per assignment. -/
lemma resource_counts_fold (resources : List Row) :
    ∀ (asgs : List Row) (h : List (String × ℕ)),
      (h.map Prod.fst).Nodup →
      ((asgs.foldl (fun h a => dIncr h (assignClass resources a)) h).map
          Prod.fst).Nodup
      ∧ (((asgs.foldl (fun h a => dIncr h (assignClass resources a)) h).map
          Prod.snd).sum = (h.map Prod.snd).sum + asgs.length) := by
  intro asgs
  induction asgs with
  | nil => intro h hnd; exact ⟨hnd, by simp⟩
  | cons a t ih =>
    intro h hnd
    rw [List.foldl_cons]
    have hstep := ih (dIncr h (assignClass resources a))
      (dIncr_keys_nodup h _ hnd)
    refine ⟨hstep.1, ?_⟩
    rw [hstep.2, dIncr_sum h _ hnd]
    simp only [List.length_cons]
    omega

/-- The total of the resource-count histogram is the number of
assignments. -/
lemma resource_counts_sum (assignments resources : List Row) :
    ((resource_counts assignments resources).map Prod.snd).sum
      = assignments.length := by
  unfold resource_counts
  have := (resource_counts_fold resources assignments [] (by simp)).2
  simpa using this

/-- Keys of the resource-count fold: the starting keys plus the class of
every processed assignment. -/
lemma resource_counts_fold_keys (resources : List Row) :
    ∀ (asgs : List Row) (h : List (String × ℕ)) (a : String),
      (a ∈ (asgs.foldl (fun h x => dIncr h (assignClass resources x)) h).map
          Prod.fst)
      ↔ (a ∈ h.map Prod.fst ∨ ∃ x ∈ asgs, assignClass resources x = a) := by
  intro asgs
  induction asgs with
  | nil =>
    intro h a
    simp
  | cons x t ih =>
    intro h a
    rw [List.foldl_cons, ih]
    rw [dIncr_mem_keys]
    constructor
    · rintro ((hm | rfl) | ⟨y, hy, rfl⟩)
      · exact Or.inl hm
      · exact Or.inr ⟨x, List.mem_cons_self _ _, rfl⟩
      · exact Or.inr ⟨y, List.mem_cons_of_mem _ hy, rfl⟩
    · rintro (hm | ⟨y, hy, rfl⟩)
      · exact Or.inl (Or.inl hm)
      · rcases List.mem_cons.mp hy with rfl | hy
        · exact Or.inl (Or.inr rfl)
        · exact Or.inr ⟨y, hy, rfl⟩

/-- Membership in the keys of resource_counts is exactly having at least
one assignment of that class. -/
lemma resource_counts_mem_keys (assignments resources : List Row) (a : String) :
    a ∈ (resource_counts assignments resources).map Prod.fst
      ↔ ∃ x ∈ assignments, assignClass resources x = a := by
  unfold resource_counts
  rw [resource_counts_fold_keys]
  simp

/-- The three cost sums partition the assignments: the cost of every
assignment lands in exactly one of labor, nonlabor, material, so the three
sums add up to the total cost of all assignments. -/
lemma costs_partition (assignments resources : List Row) :
    labor_cost assignments resources + nonlabor_cost assignments resources
      + material_cost assignments resources
      = (assignments.map targetCost).sum := by
  induction assignments with
  | nil => simp [labor_cost, nonlabor_cost, material_cost]
  | cons a t ih =>
    unfold labor_cost nonlabor_cost material_cost at ih ⊢
    rw [List.filter_cons, List.filter_cons, List.filter_cons,
      List.map_cons, List.sum_cons]
    by_cases h1 : rsrcTypeOpt resources a = some "RT_Labor"
    · have e1 : (rsrcTypeOpt resources a == some "RT_Labor") = true := by simp [h1]
      have e2 : (rsrcTypeOpt resources a == some "RT_Mat") = false := by simp [h1]
      simp only [e1, e2, Bool.true_or, Bool.not_true, if_true, if_false,
        Bool.false_eq_true, List.map_cons, List.sum_cons]
      rw [← ih]
      ring
    · by_cases h2 : rsrcTypeOpt resources a = some "RT_Mat"
      · have e1 : (rsrcTypeOpt resources a == some "RT_Labor") = false := by simp [h2]
        have e2 : (rsrcTypeOpt resources a == some "RT_Mat") = true := by simp [h2]
        simp only [e1, e2, Bool.false_or, Bool.not_true, if_true, if_false,
          Bool.false_eq_true, List.map_cons, List.sum_cons]
        rw [← ih]
        ring
      · have e1 : (rsrcTypeOpt resources a == some "RT_Labor") = false := by simp [h1]
        have e2 : (rsrcTypeOpt resources a == some "RT_Mat") = false := by simp [h2]
        simp only [e1, e2, Bool.false_or, Bool.not_false, if_true, if_false,
          Bool.false_eq_true, List.map_cons, List.sum_cons]
        rw [← ih]
        ring

/-- Reading every position of a list back with a default reproduces it. -/
lemma getD_range_map {α : Type} (l : List α) (d : α) :
    (List.range l.length).map (fun i => l.getD i d) = l := by
  induction l with
  | nil => rfl
  | cons a t ih =>
    rw [List.length_cons, List.range_succ_eq_map, List.map_cons, List.map_map]
    rw [show ((fun i => (a :: t).getD i d) ∘ Nat.succ) = fun i => t.getD i d from rfl]
    rw [ih]
    rfl

/-- The keys of a zipped row are exactly the declared columns. -/
lemma rowOf_keys (cols values : List String) :
    (rowOf cols values).map Prod.fst = cols := by
  unfold rowOf
  rw [List.map_map]
  rw [show (Prod.fst ∘ fun i => (cols.getD i "", values.getD i ""))
    = fun i => cols.getD i "" from rfl]
  exact getD_range_map cols ""

/-- Positional read after dropping the head. -/
lemma getD_drop_one {α : Type} (l : List α) (i : ℕ) (d : α) :
    (l.drop 1).getD i d = l.getD (i + 1) d := by
  cases l with
  | nil => rfl
  | cons a t => rfl

/-- Structural recursion rule for rowOf. -/
lemma rowOf_cons (c : String) (cols values : List String) :
    rowOf (c :: cols) values
      = (c, values.getD 0 "") :: rowOf cols (values.drop 1) := by
  unfold rowOf
  rw [List.length_cons, List.range_succ_eq_map, List.map_cons, List.map_map]
  congr 1
  apply List.map_congr_left
  intro i _
  simp only [Function.comp_apply]
  rw [getD_drop_one]
  rfl

/-- Lookup of a key that is bound nowhere gives none. -/
lemma lastAssoc_not_mem {β : Type} (k : String) :
    ∀ (l : List (String × β)), k ∉ l.map Prod.fst → lastAssoc l k = none := by
  intro l
  induction l with
  | nil => intro _; rfl
  | cons p t ih =>
    intro hk
    have hp : p.1 ≠ k := by
      intro hh
      exact hk (by rw [← hh]; exact List.mem_cons_self _ _)
    have ht : k ∉ t.map Prod.fst := fun hh => hk (List.mem_cons_of_mem _ hh)
    obtain ⟨k1, v1⟩ := p
    simp only [lastAssoc, ih ht]
    simp only at hp
    simp [hp]

/-- Positional lookup in a zipped row: with duplicate-free columns, the
value of the i-th column is the i-th value of the line, or the empty
string when the line is shorter. -/
lemma rowOf_lookup (cols : List String) (hnd : cols.Nodup) :
    ∀ (values : List String) (i : ℕ) (h : i < cols.length),
      dgetOpt (rowOf cols values) (cols.get ⟨i, h⟩)
        = some (values.getD i "") := by
  induction cols with
  | nil =>
    intro values i h
    exact absurd h (Nat.not_lt_zero i)
  | cons c cols ih =>
    intro values i h
    rw [rowOf_cons]
    cases i with
    | zero =>
      have hget : (c :: cols).get ⟨0, h⟩ = c := rfl
      rw [hget]
      have hc : c ∉ (rowOf cols (values.drop 1)).map Prod.fst := by
        rw [rowOf_keys]
        exact (List.nodup_cons.mp hnd).1
      unfold dgetOpt
      simp only [lastAssoc, lastAssoc_not_mem c _ hc]
      simp
    | succ i =>
      have hget : (c :: cols).get ⟨i + 1, h⟩
          = cols.get ⟨i, Nat.lt_of_succ_lt_succ h⟩ := rfl
      rw [hget]
      have hrec := ih (List.nodup_cons.mp hnd).2 (values.drop 1) i
        (Nat.lt_of_succ_lt_succ h)
      unfold dgetOpt at hrec ⊢
      simp only [lastAssoc, hrec]
      rw [getD_drop_one]

/-- Positional read inside the taken prefix. -/
lemma getD_take {α : Type} (d : α) :
    ∀ (l : List α) (n i : ℕ), i < n → (l.take n).getD i d = l.getD i d := by
  intro l
  induction l with
  | nil => intro n i _; simp
  | cons a t ih =>
    intro n i hi
    cases n with
    | zero => exact absurd hi (Nat.not_lt_zero i)
    | succ n =>
      cases i with
      | zero => rfl
      | succ i =>
        have := ih n i (Nat.lt_of_succ_lt_succ hi)
        simpa using this

/-- Values beyond the declared column count never reach the row. -/
lemma rowOf_take (cols values : List String) :
    rowOf cols values = rowOf cols (values.take cols.length) := by
  unfold rowOf
  apply List.map_congr_left
  intro i hi
  rw [getD_take "" values cols.length i (List.mem_range.mp hi)]

/-- Appending a binding makes it the one the dict lookup returns. -/
lemma lastAssoc_append {β : Type} (k2 : String) (v2 : β) (k : String) :
    ∀ (m : List (String × β)),
      lastAssoc (m ++ [(k2, v2)]) k
        = if k2 == k then some v2 else lastAssoc m k := by
  intro m
  induction m with
  | nil =>
    simp only [List.nil_append, lastAssoc]
  | cons p t ih =>
    obtain ⟨k1, v1⟩ := p
    rw [List.cons_append]
    show (match lastAssoc (t ++ [(k2, v2)]) k with
      | some v => some v
      | none => if k1 == k then some v1 else none)
      = if k2 == k then some v2 else lastAssoc ((k1, v1) :: t) k
    rw [ih]
    by_cases h : k2 == k
    · simp [h]
    · rw [if_neg h, if_neg h]
      rfl

/-- The second component of the checking-loop accumulator grows by one
for every row, in every branch of the body. -/
lemma redundantStep_total (graph : Graph) (activities : List Row)
    (acc : List RedundantRel × ℕ) (rel : Row) :
    (redundantStep graph activities acc rel).2 = acc.2 + 1 := by
  unfold redundantStep
  dsimp only
  split_ifs <;> rfl

/-- The checked total after the loop is the starting total plus the
number of rows, id-less rows included. -/
lemma redundantFold_total (graph : Graph) (activities : List Row) :
    ∀ (rels : List Row) (acc : List RedundantRel × ℕ),
      (rels.foldl (redundantStep graph activities) acc).2
        = acc.2 + rels.length := by
  intro rels
  induction rels with
  | nil => intro acc; simp
  | cons r t ih =>
    intro acc
    rw [List.foldl_cons, ih, redundantStep_total]
    simp only [List.length_cons]
    omega

/-- analyze_redundant_logic counts every relationship row in its checked
total, including rows missing an endpoint id. -/
lemma analyze_redundant_logic_total (activities relationships : List Row) :
    (analyze_redundant_logic activities relationships).total_relationships_checked
      = relationships.length := by
  unfold analyze_redundant_logic
  simp only
  rw [redundantFold_total]
  simp

/-- A row without both ids leaves the graph unchanged. -/
lemma graphStep_skip (g : Graph) (r : Row) (h : hasBothIds r = false) :
    graphStep g r = g := by
  unfold graphStep
  unfold hasBothIds at h
  rw [if_neg]
  intro hc
  rcases hc with ⟨h1, h2⟩
  simp [h1, h2] at h

/-- The graph is built from exactly the rows with both ids: id-less rows
contribute no edge. -/
lemma graphOf_filter (relationships : List Row) :
    graphOf relationships = graphOf (relationships.filter hasBothIds) := by
  unfold graphOf
  generalize ([] : Graph) = g
  induction relationships generalizing g with
  | nil => rfl
  | cons r t ih =>
    rw [List.foldl_cons, List.filter_cons]
    cases hb : hasBothIds r with
    | true =>
      rw [if_pos rfl, List.foldl_cons]
      exact ih (graphStep g r)
    | false => rw [graphStep_skip g r hb]; exact ih g

/-- Every safe line is processed without failure: blank lines, column
declarations, row lines (padded or skipped), and unrecognized lines all
recover locally. -/
lemma parse_line_isSome (st : ParseState) (raw : String) (hok : tLineOk raw) :
    (parse_line st raw).isSome := by
  unfold parse_line
  dsimp only
  split_ifs with h1 h2 h3 h4
  · rfl
  · have hlen := hok h2
    cases hf : tabFields (pyStrip raw.toList) with
    | nil => rw [hf] at hlen; simp at hlen
    | cons x xs =>
      cases xs with
      | nil => rw [hf] at hlen; simp at hlen
      | cons y ys => rfl
  · rfl
  · rfl
  · rfl

/-- The line fold of the parser succeeds on safe lines, from any state. -/
lemma foldlM_parse_isSome :
    ∀ (lines : List String) (st : ParseState),
      (∀ raw ∈ lines, tLineOk raw) →
      (lines.foldlM parse_line st).isSome := by
  intro lines
  induction lines with
  | nil => intro st _; rfl
  | cons l ls ih =>
    intro st hok
    rw [List.foldlM_cons]
    have h1 := parse_line_isSome st l (hok l (List.mem_cons_self _ _))
    obtain ⟨st2, hst⟩ := Option.isSome_iff_exists.mp h1
    rw [hst]
    exact ih st2 (fun raw hr => hok raw (List.mem_cons_of_mem _ hr))

/-- A whole parse of safe lines succeeds and yields the tables. -/
lemma parse_xer_isSome (lines : List String)
    (hok : ∀ raw ∈ lines, tLineOk raw) :
    (parse_xer_simplified lines).isSome := by
  unfold parse_xer_simplified
  obtain ⟨st, hst⟩ := Option.isSome_iff_exists.mp
    (foldlM_parse_isSome lines ⟨[], [], [], [], [], [], none, []⟩ hok)
  rw [hst]
  rfl

/-- First activity occurrence wins in code lookup. -/
lemma activityCode_cons_first (a : Row) (rest : List Row) (pid : String)
    (h : dget a "task_id" "" = pid) :
    activityCode (a :: rest) pid = dget a "task_code" pid := by
  unfold activityCode
  rw [List.find?_cons_of_pos _ (by simp [h])]

/-- C1: on the graph with exactly the relationships A to B, B to C and
A to C (all FS, lag 0), analyze_redundant_logic flags exactly the direct
edge A to C as redundant (3 rows checked, 1 flagged), and in general a
true answer of has_alternate_path always comes from a walk of at least
two edges, so reaching the successor in exactly one hop is never counted
as an alternate path. -/
theorem spec_c1 :
    analyze_redundant_logic [] chainRels
      = ⟨[⟨"A", "C", "A", "C", "PR_FS", 0⟩], 3, 1⟩
    ∧ ∀ (g : Graph) (s e : String) (dr : String × ℚ),
        has_alternate_path g s e dr = true →
        ∃ path : List String, entryChain g s path e = true ∧ 2 ≤ path.length := by
  constructor
  · decide
  · intro g s e dr h
    unfold has_alternate_path at h
    apply bfsLoop_sound g s e (initFuel g) [(s, 0, [])] [] _ h
    intro x hx
    rcases List.mem_singleton.mp hx with rfl
    simp [entryChain]

/-- Witness for C1: on the chain graph itself the soundness half
produces a two-edge walk from A to C. -/
theorem spec_c1_witness :
    ∃ path : List String,
      entryChain (graphOf chainRels) "A" path "C" = true ∧ 2 ≤ path.length :=
  spec_c1.2 (graphOf chainRels) "A" "C" ("PR_FS", 0) (by decide)

set_option maxRecDepth 1000000 in
/-- Counterexample to C2 as stated: on the graph with 1001 parallel
edges from A to B, the search for the edge A to B dequeues 1002 entries
(one for A, then 1001 for B), exceeding the claimed cap of 1000 dequeued
nodes, while only two distinct nodes ever enter the visited set, so the
1000-cap guard never fires; the search still reports no alternate path.
The some result certifies the count is the complete real dequeue count
of the loop (no fuel exhaustion). -/
theorem spec_c2_counterexample :
    bfsCount parallelGraph "B" 2000 [("A", 0, [])] [] 0 = some (false, 1002)
    ∧ 1000 < 1002 := by
  constructor
  · decide
  · decide

/-- C2 amended: the search terminates on every finite graph — its result
is already reached at the explicit fuel bound initFuel and no additional
fuel changes it — and on the two-edge cycle A to B, B to A it reports no
redundant edge for either edge; what the 1000 cap bounds is the number
of distinct nodes added to the visited set: as soon as the visited set
holds 1000 nodes the loop stops and reports no alternate path.  The
number of dequeued entries can exceed 1000 (see the counterexample). -/
theorem spec_c2 :
    analyze_redundant_logic [] cycleRels = ⟨[], 2, 0⟩
    ∧ (∀ (g : Graph) (e : String) (fuel : ℕ) (q : List Entry)
        (v : List String), 1000 ≤ v.length → bfsLoop g e fuel q v = false)
    ∧ (∀ (g : Graph) (s e : String) (dr : String × ℚ) (fuel : ℕ),
        initFuel g ≤ fuel →
        bfsLoop g e fuel [(s, 0, [])] [] = has_alternate_path g s e dr) := by
  refine ⟨by decide, ?_, ?_⟩
  · intro g e fuel q v hv
    cases q with
    | nil => cases fuel <;> simp [bfsLoop]
    | cons x rest =>
      obtain ⟨c, cum, path⟩ := x
      cases fuel with
      | zero => simp [bfsLoop]
      | succ f =>
        simp only [bfsLoop]
        rw [if_neg (by omega)]
  · intro g s e dr fuel hfuel
    unfold has_alternate_path
    have hlt : bfsMeasure g [(s, 0, [])] [] < initFuel g := by
      unfold bfsMeasure initFuel
      rw [show ([] : List String).length = 0 from rfl,
          show ([(s, 0, [])] : List Entry).length = 1 from rfl,
          Nat.sub_zero]
      omega
    exact bfsLoop_stable g e fuel (initFuel g) [(s, 0, [])] [] (by omega) hlt

/-- Witness for C2: the visited-cap branch at a visited set of 1000
names, and fuel-insensitivity at the cycle graph. -/
theorem spec_c2_witness :
    bfsLoop (graphOf cycleRels) "B" 5 [("A", 0, [])]
        (List.replicate 1000 "Z") = false
    ∧ bfsLoop (graphOf cycleRels) "A" (initFuel (graphOf cycleRels))
        [("B", 0, [])] []
      = has_alternate_path (graphOf cycleRels) "B" "A" ("PR_FS", 0) :=
  ⟨spec_c2.2.1 (graphOf cycleRels) "B" 5 [("A", 0, [])]
      (List.replicate 1000 "Z") (by rw [List.length_replicate]),
   spec_c2.2.2 (graphOf cycleRels) "B" "A" ("PR_FS", 0)
      (initFuel (graphOf cycleRels)) (le_refl _)⟩

/-- Counterexample to C3 as stated: searching the diamond graph for the
edge P to T, the node X is reached once via A and once via B; the second
arrival carries the path P, B — which does not contain X — yet the entry
is skipped by the global visited test instead of being explored again.
So nodes not on the current path are also excluded from re-visiting. -/
theorem spec_c3_counterexample :
    bfsTrace diamondGraph "T" 50 [("P", 0, [])] []
      = some (false,
        [("P", [], BfsAction.expandNode),
         ("A", ["P"], BfsAction.expandNode),
         ("B", ["P"], BfsAction.expandNode),
         ("T", ["P"], BfsAction.expandNode),
         ("X", ["P", "A"], BfsAction.expandNode),
         ("X", ["P", "B"], BfsAction.skipVisited)])
    ∧ ("X" : String) ∉ (["P", "B"] : List String) := by
  constructor
  · decide
  · decide

/-- C3 amended: the on-path exclusion applies at enqueue time (an
expansion never enqueues a node of the current path), and in addition a
global visited set applies at dequeue time: over the whole search of
one edge no node is ever expanded twice, whichever branch reaches it. -/
theorem spec_c3 :
    (∀ (g : Graph) (c : String) (cum : ℚ) (path : List String),
      ∀ x ∈ expandFrom g c cum path, x.1 ∉ path)
    ∧ (∀ (g : Graph) (e s : String) (fuel : ℕ) (b : Bool)
        (evs : List BfsEvent),
        bfsTrace g e fuel [(s, 0, [])] [] = some (b, evs) →
        (expandedNodes evs).Nodup) := by
  constructor
  · exact fun g c cum path => expandFrom_not_mem_path g c cum path
  · intro g e s fuel b evs h
    exact (bfsTrace_expand_nodup g e fuel [(s, 0, [])] [] b evs h).2

/-- Witness for C3: a concrete enqueued entry is off the current path,
and the diamond-graph trace expands each node at most once. -/
theorem spec_c3_witness :
    (("X" : String), (0 : ℚ), ["P", "B"]).1 ∉ (["P"] : List String)
    ∧ (expandedNodes
        [("P", [], BfsAction.expandNode),
         ("A", ["P"], BfsAction.expandNode),
         ("B", ["P"], BfsAction.expandNode),
         ("T", ["P"], BfsAction.expandNode),
         ("X", ["P", "A"], BfsAction.expandNode),
         ("X", ["P", "B"], BfsAction.skipVisited)]).Nodup :=
  ⟨spec_c3.1 diamondGraph "B" 0 ["P"] ("X", 0, ["P", "B"]) (by decide),
   spec_c3.2 diamondGraph "T" "P" 50 false _ (by decide)⟩

/-- Counterexample to C4 as stated: a relationship row with no endpoint
ids contributes no edge to the graph and is counted in the type
histogram, but it IS counted in the reported total of relationships
checked — the total is 1, not 0: the loop increments the total before
testing the ids. -/
theorem spec_c4_counterexample :
    analyze_redundant_logic [] [idlessRel] = ⟨[], 1, 0⟩
    ∧ graphOf [idlessRel] = []
    ∧ relationship_counts [idlessRel]
      = [("Finish-to-Start (FS)", 1), ("Finish-to-Finish (FF)", 0),
         ("Start-to-Start (SS)", 0), ("Start-to-Finish (SF)", 0)] := by
  refine ⟨by decide, by decide, by decide⟩

/-- C4 amended: for every input, a relationship row missing either id
contributes no edge to the graph (the graph equals the one built from
only the rows with both ids), is still counted in the type histogram
whenever its type tag is recognized (the histogram depends only on the
pred_type field), but is also counted in the reported total of
relationships checked, which always equals the full row count. -/
theorem spec_c4 :
    ∀ (activities relationships : List Row),
      (analyze_redundant_logic activities relationships).total_relationships_checked
        = relationships.length
      ∧ graphOf relationships = graphOf (relationships.filter hasBothIds)
      ∧ relationship_counts relationships
        = (XER_REL_MAP.map (fun p => p.2)).map
            (fun n => (n, tagCount XER_REL_MAP "pred_type" "PR_FS" relationships n)) := by
  intro activities relationships
  exact ⟨analyze_redundant_logic_total activities relationships,
    graphOf_filter relationships,
    tallyMapped_eq XER_REL_MAP "pred_type" "PR_FS" relationships⟩

/-- C5: a parsed row has exactly the declared columns as keys, ignores
values beyond the declared column count, and (for duplicate-free
declared columns, as a dict key can be declared only once meaningfully)
binds the i-th column to the i-th value of the line, with the empty
string for positions beyond the value count of the line. -/
theorem spec_c5 :
    ∀ (cols values : List String),
      (rowOf cols values).map Prod.fst = cols
      ∧ rowOf cols values = rowOf cols (values.take cols.length)
      ∧ (cols.Nodup →
          ∀ (i : ℕ) (h : i < cols.length),
            dgetOpt (rowOf cols values) (cols.get ⟨i, h⟩)
              = some (values.getD i "")) := by
  intro cols values
  exact ⟨rowOf_keys cols values, rowOf_take cols values,
    fun hnd i h => rowOf_lookup cols hnd values i h⟩

/-- Witness for C5: a three-column row over a two-value line binds the
third column to the empty string. -/
theorem spec_c5_witness :
    dgetOpt (rowOf ["a", "b", "c"] ["1", "2"]) "c" = some "" :=
  (spec_c5 ["a", "b", "c"] ["1", "2"]).2.2 (by decide) 2 (by decide)

/-- Counterexample to C6 as stated: a line consisting of just the
table-declaration marker has no second tab field; the source indexes
fields[1] unguarded, raising IndexError, which aborts the whole parse
(the caller catches it and yields no tables, embedded as none).  The
same happens when Unicode whitespace such as a no-break space precedes
the marker, since str.strip removes it first. -/
theorem spec_c6_counterexample :
    parse_xer_simplified ["%T"] = none
    ∧ parse_xer_simplified ["\u00A0%T"] = none := by
  refine ⟨by decide, by decide⟩

/-- C6 amended: the parse completes and returns the tables for every
input whose table-declaration lines (lines that begin with the marker
after Python stripping of Unicode whitespace) each carry a second tab
field; all
other malformed lines (missing fields, row and column count mismatches,
rows before any column declaration) are recovered locally by padding or
skipping and never abort the parse.  The one exception, refuted above,
is a table-declaration line with no tab. -/
theorem spec_c6 (lines : List String)
    (hok : ∀ raw ∈ lines, tLineOk raw) :
    (parse_xer_simplified lines).isSome :=
  parse_xer_isSome lines hok

/-- Witness for C6: a small well-formed export parses successfully. -/
theorem spec_c6_witness :
    (parse_xer_simplified
      ["%T\tTASK", "%F\ttask_id\ttask_code", "%R\tT1", "junk", ""]).isSome :=
  spec_c6 ["%T\tTASK", "%F\ttask_id\ttask_code", "%R\tT1", "junk", ""]
    (by decide)

/-- A boolean predicate splits the length of a list into matches and
non-matches. -/
lemma length_filter_partition {α : Type} (p : α → Bool) :
    ∀ (l : List α),
      (l.filter p).length + (l.filter (fun a => !(p a))).length = l.length := by
  intro l
  induction l with
  | nil => rfl
  | cons a t ih =>
    rw [List.filter_cons, List.filter_cons]
    cases hp : p a <;> simp [hp] <;> omega

/-- C7: the activity-type histogram always carries the six enumeration
members as keys; its counts sum to the number of activities whose tag is
one of the six recognized tags; the unmapped activities are exactly the
remainder of the activity table, which the analysis never shrinks. -/
theorem spec_c7 :
    ∀ (activities : List Row),
      (activity_counts activities).map Prod.fst
        = ["Task Dependent", "Resource Dependent", "Level of Effort",
           "Start Milestone", "Finish Milestone", "WBS Summary"]
      ∧ ((activity_counts activities).map Prod.snd).sum
        = (activities.filter
            (fun a => (mapLookup XER_ACTIVITY_MAP (dget a "task_type" "")).isSome)).length
      ∧ ((activity_counts activities).map Prod.snd).sum
          + (activities.filter
            (fun a => !(mapLookup XER_ACTIVITY_MAP (dget a "task_type" "")).isSome)).length
        = activities.length := by
  intro activities
  refine ⟨?_, ?_, ?_⟩
  · unfold activity_counts
    rw [tallyMapped_keys]
    rfl
  · unfold activity_counts
    exact tallyMapped_sum XER_ACTIVITY_MAP "task_type" "" (by decide) activities
  · unfold activity_counts
    rw [tallyMapped_sum XER_ACTIVITY_MAP "task_type" "" (by decide) activities]
    exact length_filter_partition _ activities

/-- C8: the three cost sums use the three-way partition of assignments
by looked-up resource class, so they always add up to the total cost of
all assignments; the class tallies also sum to the assignment count (one
class per assignment); an assignment whose resource id has no matching
resource record is classed Non-Labor; and the example — R1 Labor cost
100, R2 Material cost 50, unknown resource cost 25 — yields labor 100,
nonlabor 25, material 50. -/
theorem spec_c8 :
    (∀ (assignments resources : List Row),
      labor_cost assignments resources + nonlabor_cost assignments resources
        + material_cost assignments resources
        = (assignments.map targetCost).sum)
    ∧ (∀ (assignments resources : List Row),
        ((resource_counts assignments resources).map Prod.snd).sum
          = assignments.length)
    ∧ (∀ (resources : List Row) (a : Row),
        lastAssoc (resource_lookup resources) (dget a "rsrc_id" "") = none →
        assignClass resources a = "Non-Labor")
    ∧ (analyze_project_data
        ⟨[], [], exampleAssignments, exampleResources, [], []⟩).costs
      = ⟨100, 25, 50⟩ := by
  refine ⟨costs_partition, resource_counts_sum, ?_, by decide⟩
  intro resources a h
  unfold assignClass rsrcTypeOpt
  rw [h]
  rfl

/-- Witness for C8: an assignment naming a resource id with no resource
record is classed Non-Labor. -/
theorem spec_c8_witness :
    assignClass [] [("rsrc_id", "RX")] = "Non-Labor" :=
  spec_c8.2.2.1 [] [("rsrc_id", "RX")] (by decide)

/-- Counterexample to C9 as stated: with two resource records sharing id
R1 — first Labor, then Material — the lookup used for analysis resolves
R1 to the SECOND record (a later dict assignment overwrites an earlier
one), so an assignment of cost 10 on R1 is bucketed as material cost,
where the first-occurrence rule of the claim predicts labor cost 10. -/
theorem spec_c9_counterexample :
    lastAssoc (resource_lookup duplicateResources) "R1"
      = some [("rsrc_id", "R1"), ("rsrc_type", "RT_Mat")]
    ∧ (analyze_project_data
        ⟨[], [], [[("rsrc_id", "R1"), ("target_cost", "10")]],
         duplicateResources, [], []⟩).costs
      = ⟨0, 0, 10⟩ := by
  refine ⟨by decide, by decide⟩

/-- C9 amended: duplicates are not an error, but the two lookups resolve
them in opposite directions: the resource lookup is a dict comprehension
in which the LAST occurrence of an id wins, while the activity-code
lookup of the redundancy report scans the activity table and the FIRST
occurrence wins. -/
theorem spec_c9 :
    (∀ (resources : List Row) (r : Row) (k : String),
      lastAssoc (resource_lookup (resources ++ [r])) k
        = if dget r "rsrc_id" "" == k then some r
          else lastAssoc (resource_lookup resources) k)
    ∧ (∀ (a : Row) (rest : List Row) (pid : String),
        dget a "task_id" "" = pid →
        activityCode (a :: rest) pid = dget a "task_code" pid) := by
  constructor
  · intro resources r k
    unfold resource_lookup
    rw [List.map_append]
    exact lastAssoc_append (dget r "rsrc_id" "") r k (resources.map _)
  · exact activityCode_cons_first

/-- Witness for C9: the first matching activity supplies the code. -/
theorem spec_c9_witness :
    activityCode [[("task_id", "T1"), ("task_code", "A100")],
                  [("task_id", "T1"), ("task_code", "A999")]] "T1" = "A100" :=
  spec_c9.2 [("task_id", "T1"), ("task_code", "A100")]
    [[("task_id", "T1"), ("task_code", "A999")]] "T1" (by decide)

/-- C10: unlike the two always-complete histograms, the
resource-assignment-count histogram only carries classes that received
at least one assignment: with no assignments it is the empty mapping,
and a class with zero assignments is absent rather than present with a
zero count; the histogram handed back by analyze_project_data is exactly
this tally. -/
theorem spec_c10 :
    (∀ (resources : List Row), resource_counts [] resources = [])
    ∧ (∀ (assignments resources : List Row) (name : String),
        name ∈ (resource_counts assignments resources).map Prod.fst
          ↔ ∃ x ∈ assignments, assignClass resources x = name)
    ∧ (∀ (d : XerTables),
        (analyze_project_data d).resource_counts
          = resource_counts d.assignments d.resources) := by
  refine ⟨fun _ => rfl, ?_, fun _ => rfl⟩
  exact resource_counts_mem_keys
